import Mathlib

/-!
Shallow embedding of the shellcoder crate.

Byte buffers and regions are lists of naturals (each element a byte value).
The embedding covers:
 - the operations and the integer codec of src/ops.rs, with their two
   realizations: write_to (direct region) and write_to_io (stream, given an
   abstract write-all function on a sink state);
 - the fixed-buffer engine of src/static.rs, where the mutable slice held in
   field 0 is modelled as an offset (start) into the underlying caller buffer
   (full), so that the slice reassignment in add becomes an offset increase;
 - the growable-buffer engine of src/alloc.rs, whose Vec sink is the
   write-all function that appends and never fails.

The usize type is modelled as a natural number together with an explicit
bound USIZE_MAX; checked_add is the test against that bound.
-/

/-- Largest value of usize on a 64-bit target; checked_add in the
fixed-buffer engine fails past this bound. -/
def USIZE_MAX : ℕ := 2 ^ 64 - 1

/-- Errors of src/error.rs. The payload of the Io variant is dropped. -/
inductive Error where
  | ioFailure : Error
  | outputBufferTooSmall : ℕ → Error
  | integerOverflow : Error
deriving DecidableEq

/-- Endianness choice of the WriteInteger operation: its two constructors
BigEndian and LittleEndian. -/
inductive Endian where
  | big : Endian
  | little : Endian
deriving DecidableEq

/-- Widths of the four unsigned integer types that implement
EncodableInteger: u8, u16, u32 and u64. -/
inductive IntWidth where
  | w8 : IntWidth
  | w16 : IntWidth
  | w32 : IntWidth
  | w64 : IntWidth
deriving DecidableEq

/-- Embedding of EncodableInteger.n: the fixed byte width BITS >> 3. -/
def IntWidth.n : IntWidth → ℕ
  | .w8 => 1
  | .w16 => 2
  | .w32 => 4
  | .w64 => 8

/-- Big-endian byte decomposition of a value into w bytes, most significant
first: the embedding of to_be_bytes for the unsigned type of width w. A Rust
value of that type satisfies v < 256 ^ w, for which this is exact; larger v
are truncated exactly as the fixed-width type would truncate them. -/
def toBeBytes : ℕ → ℕ → List ℕ
  | 0, _ => []
  | w + 1, v => toBeBytes w (v / 256) ++ [v % 256]

/-- Little-endian byte decomposition, least significant byte first: the
embedding of to_le_bytes for the unsigned type of width w. -/
def toLeBytes : ℕ → ℕ → List ℕ
  | 0, _ => []
  | w + 1, v => v % 256 :: toLeBytes w (v / 256)

/-- Reinterpretation of a byte list as a big-endian unsigned integer. -/
def fromBeBytes (l : List ℕ) : ℕ :=
  l.foldl (fun acc b => acc * 256 + b) 0

/-- Embedding of EncodableInteger.write_be: checks that the region holds at
least n bytes, then copies the big-endian bytes over the front of the
region; fails with OutputBufferTooSmall(n) otherwise, writing nothing. -/
def EncodableInteger.write_be (w : IntWidth) (v : ℕ) (out : List ℕ) : Except Error (List ℕ) :=
  if w.n ≤ out.length then .ok (toBeBytes w.n v ++ out.drop w.n)
  else .error (.outputBufferTooSmall w.n)

/-- Embedding of EncodableInteger.write_le, the little-endian counterpart
of write_be. -/
def EncodableInteger.write_le (w : IntWidth) (v : ℕ) (out : List ℕ) : Except Error (List ℕ) :=
  if w.n ≤ out.length then .ok (toLeBytes w.n v ++ out.drop w.n)
  else .error (.outputBufferTooSmall w.n)

/-- Embedding of Fill::write_to: get_mut(..len) succeeds exactly when
len ≤ out.length, in which case the first len bytes are set to chr and the
rest is untouched; otherwise OutputBufferTooSmall(len) with no write. -/
def Fill.write_to (len chr : ℕ) (out : List ℕ) : Except Error (List ℕ × ℕ) :=
  if len ≤ out.length then .ok (List.replicate len chr ++ out.drop len, len)
  else .error (.outputBufferTooSmall len)

/-- Embedding of Advance::write_to, which delegates to Fill with the zero
byte. -/
def Advance.write_to (n : ℕ) (out : List ℕ) : Except Error (List ℕ × ℕ) :=
  Fill.write_to n 0 out

/-- Embedding of WriteInteger::write_to: dispatches on the endianness
constructor and maps the unit result to the codec width n. -/
def WriteInteger.write_to (w : IntWidth) (e : Endian) (v : ℕ) (out : List ℕ) :
    Except Error (List ℕ × ℕ) :=
  match e with
  | .big => (EncodableInteger.write_be w v out).map (fun r => (r, w.n))
  | .little => (EncodableInteger.write_le w v out).map (fun r => (r, w.n))

/-- Embedding of WriteBuffer::write_to: copies the borrowed bytes over the
front of the region when they fit, otherwise OutputBufferTooSmall with the
borrowed length and no write. -/
def WriteBuffer.write_to (b : List ℕ) (out : List ℕ) : Except Error (List ℕ × ℕ) :=
  if b.length ≤ out.length then .ok (b ++ out.drop b.length, b.length)
  else .error (.outputBufferTooSmall b.length)

/-- Embedding of the write loop in Fill::write_to_io: the single fill byte
is written k times in sequence through the write-all function of the sink;
the first failing write aborts the loop. -/
def Fill.fill_loop {σ : Type} (writeAll : σ → List ℕ → Option σ) (chr : ℕ) :
    ℕ → σ → Option σ
  | 0, st => some st
  | k + 1, st => (writeAll st [chr]).bind (Fill.fill_loop writeAll chr k)

/-- Embedding of Fill::write_to_io: runs the fill loop and reports len
bytes written on success. -/
def Fill.write_to_io {σ : Type} (writeAll : σ → List ℕ → Option σ) (len chr : ℕ) (st : σ) :
    Option (σ × ℕ) :=
  (Fill.fill_loop writeAll chr len st).map (fun st2 => (st2, len))

/-- Embedding of Advance::write_to_io, which delegates to Fill with the
zero byte. -/
def Advance.write_to_io {σ : Type} (writeAll : σ → List ℕ → Option σ) (n : ℕ) (st : σ) :
    Option (σ × ℕ) :=
  Fill.write_to_io writeAll n 0 st

/-- Embedding of WriteInteger::write_to_io: writes the endianness-selected
byte representation in one write-all call and reports the codec width. -/
def WriteInteger.write_to_io {σ : Type} (writeAll : σ → List ℕ → Option σ)
    (w : IntWidth) (e : Endian) (v : ℕ) (st : σ) : Option (σ × ℕ) :=
  match e with
  | .big => (writeAll st (toBeBytes w.n v)).map (fun st2 => (st2, w.n))
  | .little => (writeAll st (toLeBytes w.n v)).map (fun st2 => (st2, w.n))

/-- Embedding of WriteBuffer::write_to_io: writes the borrowed bytes in one
write-all call and reports their length. -/
def WriteBuffer.write_to_io {σ : Type} (writeAll : σ → List ℕ → Option σ)
    (b : List ℕ) (st : σ) : Option (σ × ℕ) :=
  (writeAll st b).map (fun st2 => (st2, b.length))

/-- The closed set of operations implementing the Op trait in src/ops.rs:
Advance(n), Fill(len, chr), WriteInteger over the four widths and two
endiannesses, and WriteBuffer over borrowed bytes. -/
inductive AnyOp where
  | advance : ℕ → AnyOp
  | fill : ℕ → ℕ → AnyOp
  | writeInteger : IntWidth → Endian → ℕ → AnyOp
  | writeBuffer : List ℕ → AnyOp
deriving DecidableEq

/-- Dispatch of the direct-region realization write_to over the closed
operation set. -/
def AnyOp.write_to : AnyOp → List ℕ → Except Error (List ℕ × ℕ)
  | .advance n, out => Advance.write_to n out
  | .fill len chr, out => Fill.write_to len chr out
  | .writeInteger w e v, out => WriteInteger.write_to w e v out
  | .writeBuffer b, out => WriteBuffer.write_to b out

/-- Dispatch of the stream realization write_to_io over the closed
operation set. -/
def AnyOp.write_to_io {σ : Type} (writeAll : σ → List ℕ → Option σ) :
    AnyOp → σ → Option (σ × ℕ)
  | .advance n, st => Advance.write_to_io writeAll n st
  | .fill len chr, st => Fill.write_to_io writeAll len chr st
  | .writeInteger w e v, st => WriteInteger.write_to_io writeAll w e v st
  | .writeBuffer b, st => WriteBuffer.write_to_io writeAll b st

/-- Declared byte count of an operation: the deterministic number of bytes
it writes when given enough capacity. -/
def AnyOp.size : AnyOp → ℕ
  | .advance n => n
  | .fill len _ => len
  | .writeInteger w _ _ => w.n
  | .writeBuffer b => b.length

/-- Canonical byte encoding of an operation: the bytes it writes. -/
def AnyOp.encode : AnyOp → List ℕ
  | .advance n => List.replicate n 0
  | .fill len chr => List.replicate len chr
  | .writeInteger w e v =>
    match e with
    | .big => toBeBytes w.n v
    | .little => toLeBytes w.n v
  | .writeBuffer b => b

/-- Total declared byte count of a sequence of operations. -/
def totalSize : List AnyOp → ℕ
  | [] => 0
  | op :: ops => op.size + totalSize ops

/-- Concatenation, in call order, of the canonical encodings of a sequence
of operations. -/
def concatEnc : List AnyOp → List ℕ
  | [] => []
  | op :: ops => op.encode ++ concatEnc ops

/-- The write-all function of the Vec sink used by the growable-buffer
engine: appends the bytes and never fails. -/
def vecWriteAll (st : List ℕ) (bytes : List ℕ) : Option (List ℕ) :=
  some (st ++ bytes)

/-- State of the fixed-buffer engine of src/static.rs. The Rust value holds
a mutable slice (field 0, the remaining writable region) and a committed
counter (field 1); the slice is modelled as the underlying caller buffer
full together with the offset start at which the remaining region begins,
so that the reassignment of field 0 in add is an increase of start. -/
structure Static.Shellcoder where
  full : List ℕ
  start : ℕ
  committed : ℕ
deriving DecidableEq

/-- Embedding of the static Shellcoder::new: full caller buffer remaining,
zero committed. -/
def Static.Shellcoder.new (buf : List ℕ) : Static.Shellcoder :=
  ⟨buf, 0, 0⟩

/-- The remaining writable region: the current value of field 0. -/
def Static.Shellcoder.remaining (s : Static.Shellcoder) : List ℕ :=
  s.full.drop s.start

/-- Embedding of the static Shellcoder::get, which evaluates
self.0.get_unchecked(..self.1): the first committed bytes of the REMAINING
region. The get_unchecked call has the precondition committed ≤ length of
the remaining region; the out-of-bounds case, undefined behaviour in the
source, is modelled as none. -/
def Static.Shellcoder.get (s : Static.Shellcoder) : Option (List ℕ) :=
  if s.committed ≤ s.remaining.length then some (s.remaining.take s.committed)
  else none

/-- Embedding of the static Shellcoder::add. Step order follows the source:
write_to on the remaining region (its error propagates with no state
change); then field 0 is reassigned to self.0.get_mut(n..), which fails
with OutputBufferTooSmall(n) if n exceeds the region length (after the
bytes were already written back); then checked_add on the committed
counter, whose overflow failure also occurs after field 0 moved. -/
def Static.Shellcoder.add (s : Static.Shellcoder) (op : AnyOp) :
    Static.Shellcoder × Option Error :=
  match AnyOp.write_to op s.remaining with
  | .error e => (s, some e)
  | .ok (region2, n) =>
    let full2 := s.full.take s.start ++ region2
    if n ≤ region2.length then
      if s.committed + n ≤ USIZE_MAX then
        ({ full := full2, start := s.start + n, committed := s.committed + n }, none)
      else
        ({ full := full2, start := s.start + n, committed := s.committed }, some .integerOverflow)
    else
      ({ full := full2, start := s.start, committed := s.committed }, some (.outputBufferTooSmall n))

/-- Sequential runs of add on the fixed-buffer engine, stopping at the
first error. -/
def Static.run : Static.Shellcoder → List AnyOp → Static.Shellcoder × Option Error
  | s, [] => (s, none)
  | s, op :: ops =>
    match s.add op with
    | (s2, none) => Static.run s2 ops
    | (s2, some e) => (s2, some e)

/-- State of the growable-buffer engine of src/alloc.rs: the accumulated
stream and the optional maximum length. -/
structure Alloc.Shellcoder where
  stream : List ℕ
  max_len : Option ℕ
deriving DecidableEq

/-- Embedding of the alloc Shellcoder::new: empty stream, no bound. -/
def Alloc.Shellcoder.new : Alloc.Shellcoder :=
  ⟨[], none⟩

/-- Embedding of the alloc Shellcoder::new_with_max_len. -/
def Alloc.Shellcoder.new_with_max_len (m : ℕ) : Alloc.Shellcoder :=
  ⟨[], some m⟩

/-- Embedding of the alloc Shellcoder::as_bytes: a pure read of the
stream. -/
def Alloc.Shellcoder.as_bytes (s : Alloc.Shellcoder) : List ℕ :=
  s.stream

/-- Embedding of the alloc Shellcoder::add: the operation writes to the Vec
sink (which appends and cannot fail), and only afterwards is the bound
checked; a violated bound reports OutputBufferTooSmall with the
post-append stream length, with the appended bytes kept. -/
def Alloc.Shellcoder.add (s : Alloc.Shellcoder) (op : AnyOp) :
    Alloc.Shellcoder × Option Error :=
  match AnyOp.write_to_io vecWriteAll op s.stream with
  | none => (s, some .ioFailure)
  | some (stream2, _) =>
    match s.max_len with
    | some m =>
      if m < stream2.length then
        (⟨stream2, s.max_len⟩, some (.outputBufferTooSmall stream2.length))
      else (⟨stream2, s.max_len⟩, none)
    | none => (⟨stream2, s.max_len⟩, none)

/-- Sequential runs of add on the growable-buffer engine, stopping at the
first error. -/
def Alloc.run : Alloc.Shellcoder → List AnyOp → Alloc.Shellcoder × Option Error
  | s, [] => (s, none)
  | s, op :: ops =>
    match s.add op with
    | (s2, none) => Alloc.run s2 ops
    | (s2, some e) => (s2, some e)

/-- Invariant of the fixed-buffer engine relative to the original capacity:
the underlying buffer keeps its length, the offset of the remaining region
equals the committed counter, and the counter never exceeds the capacity. -/
def Static.Inv (cap : ℕ) (s : Static.Shellcoder) : Prop :=
  s.full.length = cap ∧ s.start = s.committed ∧ s.committed ≤ cap

theorem toBeBytes_length (w : ℕ) : ∀ v : ℕ, (toBeBytes w v).length = w := by
  induction w with
  | zero => intro v; rfl
  | succ w ih => intro v; simp [toBeBytes, ih]

theorem toLeBytes_length (w : ℕ) : ∀ v : ℕ, (toLeBytes w v).length = w := by
  induction w with
  | zero => intro v; rfl
  | succ w ih => intro v; simp [toLeBytes, ih]

theorem AnyOp.encode_length (op : AnyOp) : op.encode.length = op.size := by
  cases op with
  | advance n => simp [AnyOp.encode, AnyOp.size]
  | fill len chr => simp [AnyOp.encode, AnyOp.size]
  | writeInteger w e v =>
    cases e <;> simp [AnyOp.encode, AnyOp.size, toBeBytes_length, toLeBytes_length]
  | writeBuffer b => simp [AnyOp.encode, AnyOp.size]

theorem AnyOp.write_to_of_le (op : AnyOp) (out : List ℕ) (h : op.size ≤ out.length) :
    op.write_to out = .ok (op.encode ++ out.drop op.size, op.size) := by
  cases op with
  | advance n =>
    simp only [AnyOp.size] at h
    simp [AnyOp.write_to, Advance.write_to, Fill.write_to, AnyOp.encode, AnyOp.size, h]
  | fill len chr =>
    simp only [AnyOp.size] at h
    simp [AnyOp.write_to, Fill.write_to, AnyOp.encode, AnyOp.size, h]
  | writeInteger w e v =>
    simp only [AnyOp.size] at h
    cases e <;>
      simp [AnyOp.write_to, WriteInteger.write_to, EncodableInteger.write_be,
        EncodableInteger.write_le, AnyOp.encode, AnyOp.size, h, Except.map]
  | writeBuffer b =>
    simp only [AnyOp.size] at h
    simp [AnyOp.write_to, WriteBuffer.write_to, AnyOp.encode, AnyOp.size, h]

theorem AnyOp.write_to_of_lt (op : AnyOp) (out : List ℕ) (h : out.length < op.size) :
    op.write_to out = .error (.outputBufferTooSmall op.size) := by
  have h2 : ¬ op.size ≤ out.length := Nat.not_le.mpr h
  cases op with
  | advance n =>
    simp only [AnyOp.size] at h2
    simp [AnyOp.write_to, Advance.write_to, Fill.write_to, AnyOp.size, h2]
  | fill len chr =>
    simp only [AnyOp.size] at h2
    simp [AnyOp.write_to, Fill.write_to, AnyOp.size, h2]
  | writeInteger w e v =>
    simp only [AnyOp.size] at h2
    cases e <;>
      simp [AnyOp.write_to, WriteInteger.write_to, EncodableInteger.write_be,
        EncodableInteger.write_le, AnyOp.size, h2, Except.map]
  | writeBuffer b =>
    simp only [AnyOp.size] at h2
    simp [AnyOp.write_to, WriteBuffer.write_to, AnyOp.size, h2]

theorem AnyOp.write_to_eq_ok (op : AnyOp) (out r : List ℕ) (n : ℕ)
    (h : op.write_to out = .ok (r, n)) :
    n = op.size ∧ op.size ≤ out.length ∧ r = op.encode ++ out.drop op.size := by
  by_cases hle : op.size ≤ out.length
  · rw [AnyOp.write_to_of_le op out hle] at h
    have h2 := Except.ok.inj h
    have h3 : op.encode ++ out.drop op.size = r := congrArg Prod.fst h2
    have h4 : op.size = n := congrArg Prod.snd h2
    exact ⟨h4.symm, hle, h3.symm⟩
  · rw [AnyOp.write_to_of_lt op out (Nat.lt_of_not_le hle)] at h
    exact absurd h (by simp)

theorem fromBeBytes_append_single (l : List ℕ) (b : ℕ) :
    fromBeBytes (l ++ [b]) = fromBeBytes l * 256 + b := by
  simp [fromBeBytes, List.foldl_append]

theorem fromBeBytes_toBeBytes (w : ℕ) : ∀ v : ℕ, fromBeBytes (toBeBytes w v) = v % 256 ^ w := by
  induction w with
  | zero => intro v; simp [toBeBytes, fromBeBytes, Nat.mod_one]
  | succ w ih =>
    intro v
    rw [toBeBytes, fromBeBytes_append_single, ih]
    have hpow : (256 : ℕ) ^ (w + 1) = 256 * 256 ^ w := by ring
    rw [hpow]
    have h1 : v % (256 * 256 ^ w) / 256 = v / 256 % 256 ^ w :=
      Nat.mod_mul_right_div_self v 256 (256 ^ w)
    have h2 : v % (256 * 256 ^ w) % 256 = v % 256 :=
      Nat.mod_mod_of_dvd v ⟨256 ^ w, rfl⟩
    have h3 : 256 * (v % (256 * 256 ^ w) / 256) + v % (256 * 256 ^ w) % 256
        = v % (256 * 256 ^ w) :=
      Nat.div_add_mod _ 256
    omega

theorem Fill.fill_loop_vec (chr k : ℕ) : ∀ st : List ℕ,
    Fill.fill_loop vecWriteAll chr k st = some (st ++ List.replicate k chr) := by
  induction k with
  | zero => intro st; simp [Fill.fill_loop]
  | succ k ih =>
    intro st
    simp [Fill.fill_loop, vecWriteAll, ih, List.replicate_succ]

theorem AnyOp.write_to_io_vec (op : AnyOp) (st : List ℕ) :
    AnyOp.write_to_io vecWriteAll op st = some (st ++ op.encode, op.size) := by
  cases op with
  | advance n =>
    simp [AnyOp.write_to_io, Advance.write_to_io, Fill.write_to_io, Fill.fill_loop_vec,
      AnyOp.encode, AnyOp.size]
  | fill len chr =>
    simp [AnyOp.write_to_io, Fill.write_to_io, Fill.fill_loop_vec, AnyOp.encode, AnyOp.size]
  | writeInteger w e v =>
    cases e <;>
      simp [AnyOp.write_to_io, WriteInteger.write_to_io, vecWriteAll, AnyOp.encode, AnyOp.size]
  | writeBuffer b =>
    simp [AnyOp.write_to_io, WriteBuffer.write_to_io, vecWriteAll, AnyOp.encode, AnyOp.size]

theorem Static.remaining_length_eq (cap : ℕ) (s : Static.Shellcoder)
    (hinv : Static.Inv cap s) : s.remaining.length = cap - s.committed := by
  obtain ⟨hlen, hsc, hle⟩ := hinv
  simp [Static.Shellcoder.remaining]
  omega

theorem Static.add_of_fit (cap : ℕ) (s : Static.Shellcoder) (op : AnyOp)
    (hinv : Static.Inv cap s) (hcap : cap ≤ USIZE_MAX)
    (hfit : op.size ≤ s.remaining.length) :
    s.add op =
      ({ full := s.full.take s.start ++ (op.encode ++ s.remaining.drop op.size),
         start := s.start + op.size, committed := s.committed + op.size }, none) := by
  have hrem := Static.remaining_length_eq cap s hinv
  obtain ⟨hlen, hsc, hle⟩ := hinv
  have hrlen : (op.encode ++ s.remaining.drop op.size).length = s.remaining.length := by
    simp [List.length_append, List.length_drop, AnyOp.encode_length]
    omega
  have h1 : op.size ≤ (op.encode ++ s.remaining.drop op.size).length := by omega
  have h2 : s.committed + op.size ≤ USIZE_MAX := by omega
  unfold Static.Shellcoder.add
  rw [AnyOp.write_to_of_le op s.remaining hfit]
  simp [h1, h2]
  have he := AnyOp.encode_length op
  omega

theorem Static.add_none_spec (cap : ℕ) (s s2 : Static.Shellcoder) (op : AnyOp)
    (hinv : Static.Inv cap s) (h : s.add op = (s2, none)) :
    Static.Inv cap s2 ∧ s2.committed = s.committed + op.size ∧
      op.size ≤ s.remaining.length ∧
      s2.full = s.full.take s.start ++ (op.encode ++ s.remaining.drop op.size) := by
  have hrem := Static.remaining_length_eq cap s hinv
  obtain ⟨hlen, hsc, hle⟩ := hinv
  cases hw : AnyOp.write_to op s.remaining with
  | error e =>
    have heq : s.add op = (s, some e) := by
      unfold Static.Shellcoder.add
      rw [hw]
    have h6 := heq.symm.trans h
    simp at h6
  | ok p =>
    obtain ⟨r, n⟩ := p
    obtain ⟨hn, hfit, hr⟩ := AnyOp.write_to_eq_ok op s.remaining r n hw
    have hrl : r.length = s.remaining.length := by
      rw [hr]
      simp [List.length_append, List.length_drop, AnyOp.encode_length]
      omega
    have hnr : n ≤ r.length := by omega
    by_cases hov : s.committed + n ≤ USIZE_MAX
    · have heq : s.add op =
          ({ full := s.full.take s.start ++ r, start := s.start + n,
             committed := s.committed + n }, none) := by
        unfold Static.Shellcoder.add
        rw [hw]
        simp [hnr, hov]
      have h6 := heq.symm.trans h
      have h5 := congrArg Prod.fst h6
      simp only at h5
      subst h5
      subst hn
      refine ⟨⟨?_, ?_, ?_⟩, ?_, hfit, ?_⟩
      · simp [List.length_append, List.length_take]
        omega
      · simp
        omega
      · simp
        omega
      · simp
      · simp [hr]
    · have heq : s.add op =
          ({ full := s.full.take s.start ++ r, start := s.start + n,
             committed := s.committed }, some Error.integerOverflow) := by
        unfold Static.Shellcoder.add
        rw [hw]
        simp [hnr, hov]
      have h6 := heq.symm.trans h
      simp at h6

theorem Static.run_none_inv (cap : ℕ) : ∀ (ops : List AnyOp) (s s2 : Static.Shellcoder),
    Static.Inv cap s → Static.run s ops = (s2, none) → Static.Inv cap s2 := by
  intro ops
  induction ops with
  | nil =>
    intro s s2 hinv h
    simp only [Static.run] at h
    injection h with h1 h2
    exact h1 ▸ hinv
  | cons op ops ih =>
    intro s s2 hinv h
    simp only [Static.run] at h
    cases hadd : s.add op with
    | mk t r =>
      rw [hadd] at h
      cases r with
      | none => exact ih t s2 (Static.add_none_spec cap s t op hinv hadd).1 h
      | some e => simp at h

theorem take_append_exact (l1 l2 : List ℕ) (k : ℕ) :
    (l1 ++ l2).take (l1.length + k) = l1 ++ l2.take k := by
  rw [List.take_append_eq_append_take]
  congr 1
  · exact List.take_of_length_le (Nat.le_add_right _ _)
  · congr 1
    omega

theorem take_encode_left (op : AnyOp) (rest : List ℕ) :
    (op.encode ++ rest).take op.size = op.encode := by
  have he := AnyOp.encode_length op
  rw [← he]
  simp

theorem Static.run_fit (cap : ℕ) (hcap : cap ≤ USIZE_MAX) :
    ∀ (ops : List AnyOp) (s : Static.Shellcoder), Static.Inv cap s →
      s.committed + totalSize ops ≤ cap →
      ∃ s2, Static.run s ops = (s2, none) ∧ Static.Inv cap s2 ∧
        s2.committed = s.committed + totalSize ops ∧
        s2.full.take s2.committed = s.full.take s.committed ++ concatEnc ops := by
  intro ops
  induction ops with
  | nil =>
    intro s hinv hb
    exact ⟨s, rfl, hinv, by simp [totalSize], by simp [concatEnc]⟩
  | cons op ops ih =>
    intro s hinv hb
    have hrem := Static.remaining_length_eq cap s hinv
    have hinv2 := hinv
    obtain ⟨hlen, hsc, hle⟩ := hinv2
    have hts : totalSize (op :: ops) = op.size + totalSize ops := rfl
    rw [hts] at hb
    have hfit : op.size ≤ s.remaining.length := by omega
    have hadd := Static.add_of_fit cap s op hinv hcap hfit
    have hspec := Static.add_none_spec cap s _ op hinv hadd
    obtain ⟨hinvn, hcn, -, -⟩ := hspec
    dsimp only at hcn
    have hb2 : s.committed + op.size + totalSize ops ≤ cap := by omega
    obtain ⟨s3, hrun3, hinv3, hc3, hp3⟩ := ih _ hinvn hb2
    dsimp only at hc3 hp3
    have hl1 : (s.full.take s.start).length = s.committed := by
      simp [List.length_take]
      omega
    have hkey : (s.full.take s.start ++ (op.encode ++ s.remaining.drop op.size)).take
        (s.committed + op.size) = s.full.take s.committed ++ op.encode := by
      calc (s.full.take s.start ++ (op.encode ++ s.remaining.drop op.size)).take
            (s.committed + op.size)
          = (s.full.take s.start ++ (op.encode ++ s.remaining.drop op.size)).take
            ((s.full.take s.start).length + op.size) := by rw [hl1]
        _ = s.full.take s.start ++ (op.encode ++ s.remaining.drop op.size).take op.size :=
            take_append_exact _ _ _
        _ = s.full.take s.start ++ op.encode := by rw [take_encode_left]
        _ = s.full.take s.committed ++ op.encode := by rw [hsc]
    rw [hkey] at hp3
    refine ⟨s3, ?_, hinv3, ?_, ?_⟩
    · simp only [Static.run]
      rw [hadd]
      exact hrun3
    · rw [hc3, hts]
      omega
    · rw [hp3]
      simp [concatEnc, List.append_assoc]

theorem Alloc.add_of_le (s : Alloc.Shellcoder) (op : AnyOp) (m : ℕ)
    (hm : s.max_len = some m) (hle : s.stream.length + op.size ≤ m) :
    s.add op = (⟨s.stream ++ op.encode, some m⟩, none) := by
  have hlen : (s.stream ++ op.encode).length = s.stream.length + op.size := by
    simp [AnyOp.encode_length]
  have hnot : ¬ m < (s.stream ++ op.encode).length := by omega
  unfold Alloc.Shellcoder.add
  rw [AnyOp.write_to_io_vec, hm]
  simp [hnot]
  have he := AnyOp.encode_length op
  omega

theorem Alloc.add_of_gt (s : Alloc.Shellcoder) (op : AnyOp) (m : ℕ)
    (hm : s.max_len = some m) (hgt : m < s.stream.length + op.size) :
    s.add op = (⟨s.stream ++ op.encode, some m⟩,
      some (.outputBufferTooSmall (s.stream.length + op.size))) := by
  have hlen : (s.stream ++ op.encode).length = s.stream.length + op.size := by
    simp [AnyOp.encode_length]
  have hlt : m < (s.stream ++ op.encode).length := by omega
  unfold Alloc.Shellcoder.add
  rw [AnyOp.write_to_io_vec, hm]
  simp [hlt, hlen]
  omega

theorem Alloc.add_none_le (s s2 : Alloc.Shellcoder) (op : AnyOp) (m : ℕ)
    (hm : s.max_len = some m) (h : s.add op = (s2, none)) : s2.stream.length ≤ m := by
  by_cases hlt : m < s.stream.length + op.size
  · have heq := Alloc.add_of_gt s op m hm hlt
    have h6 := heq.symm.trans h
    simp at h6
  · have heq := Alloc.add_of_le s op m hm (Nat.not_lt.mp hlt)
    have h6 := heq.symm.trans h
    have h5 : ({ stream := s.stream ++ op.encode, max_len := some m } : Alloc.Shellcoder) = s2 :=
      congrArg Prod.fst h6
    rw [← h5]
    have hlen : (s.stream ++ op.encode).length = s.stream.length + op.size := by
      simp [AnyOp.encode_length]
    show (s.stream ++ op.encode).length ≤ m
    omega

theorem Alloc.run_le (m : ℕ) : ∀ (ops : List AnyOp) (s : Alloc.Shellcoder),
    s.max_len = some m → s.stream.length + totalSize ops ≤ m →
    Alloc.run s ops = (⟨s.stream ++ concatEnc ops, some m⟩, none) := by
  intro ops
  induction ops with
  | nil =>
    intro s hm hb
    obtain ⟨st, ml⟩ := s
    simp only at hm
    subst hm
    simp [Alloc.run, concatEnc]
  | cons op ops ih =>
    intro s hm hb
    have hts : totalSize (op :: ops) = op.size + totalSize ops := rfl
    rw [hts] at hb
    have hadd := Alloc.add_of_le s op m hm (by omega)
    have hrec := ih ⟨s.stream ++ op.encode, some m⟩ rfl (by
      dsimp only
      have hlen : (s.stream ++ op.encode).length = s.stream.length + op.size := by
        simp [AnyOp.encode_length]
      omega)
    dsimp only at hrec
    simp only [Alloc.run]
    rw [hadd]
    show Alloc.run ⟨s.stream ++ op.encode, some m⟩ ops = _
    rw [hrec]
    simp [concatEnc, List.append_assoc]

/-- C1: the claim says get returns exactly the first committed bytes of the
original caller-supplied region. On the code this fails: get slices the
REMAINING region (field 0, reassigned to the suffix on every add) by the
committed counter. After one add of WriteBuffer([1,2,3,4]) on a fresh
8-byte zero buffer, the committed prefix of the original region is
[1,2,3,4], yet get returns the four bytes that follow it, [0,0,0,0]. -/
theorem C1_get_reads_remaining_region :
    ((Static.Shellcoder.new (List.replicate 8 0)).add (.writeBuffer [1, 2, 3, 4])).2 = none ∧
    ((Static.Shellcoder.new (List.replicate 8 0)).add (.writeBuffer [1, 2, 3, 4])).1.committed
      = 4 ∧
    ((Static.Shellcoder.new (List.replicate 8 0)).add (.writeBuffer [1, 2, 3, 4])).1.full.take 4
      = [1, 2, 3, 4] ∧
    ((Static.Shellcoder.new (List.replicate 8 0)).add (.writeBuffer [1, 2, 3, 4])).1.get
      = some [0, 0, 0, 0] := by
  exact ⟨rfl, rfl, rfl, rfl⟩

/-- C2: the claim says the committed counter never exceeds the length of the
current remaining region, so the unchecked slice in get stays in bounds. On
the code this fails in reachable states: after one successful Fill(1, 0x41)
on a capacity-1 buffer, committed is 1 while the remaining region is empty,
and get_unchecked(..1) on an empty slice is out of bounds (modelled as
get evaluating to none). -/
theorem C2_committed_exceeds_remaining :
    ((Static.Shellcoder.new [0]).add (.fill 1 65)).2 = none ∧
    ((Static.Shellcoder.new [0]).add (.fill 1 65)).1.committed = 1 ∧
    ((Static.Shellcoder.new [0]).add (.fill 1 65)).1.remaining.length = 0 ∧
    ¬ ((Static.Shellcoder.new [0]).add (.fill 1 65)).1.committed ≤
        ((Static.Shellcoder.new [0]).add (.fill 1 65)).1.remaining.length ∧
    ((Static.Shellcoder.new [0]).add (.fill 1 65)).1.get = none := by
  exact ⟨rfl, rfl, rfl, by decide, rfl⟩

/-- C3 counterexample: with bound 0, one add of Fill(1, 0x41) leaves the
accumulated sequence at length 1, exceeding the bound, so the claim that
the length never exceeds the bound after every add call (success or error)
is false at this input. -/
theorem C3_counterexample :
    ¬ ((Alloc.Shellcoder.new_with_max_len 0).add (.fill 1 65)).1.stream.length ≤ 0 := by
  decide

/-- C3 amended: for the growable-buffer engine with a configured bound,
after every add call THAT RETURNS SUCCESS the length of the accumulated
byte sequence does not exceed the bound (an erroring add may leave the
sequence longer than the bound, as C5 states). -/
theorem C3_amended_bound_after_success (s s2 : Alloc.Shellcoder) (op : AnyOp) (m : ℕ)
    (hm : s.max_len = some m) (h : s.add op = (s2, none)) :
    s2.stream.length ≤ m :=
  Alloc.add_none_le s s2 op m hm h

theorem C3_amended_witness :
    (⟨[65, 65], some 3⟩ : Alloc.Shellcoder).stream.length ≤ 3 :=
  C3_amended_bound_after_success (Alloc.Shellcoder.new_with_max_len 3)
    ⟨[65, 65], some 3⟩ (.fill 2 65) 3 rfl rfl

/-- C4: for the fixed-buffer engine, after any sequence of successful add
calls starting from a fresh engine over a caller buffer, the committed
counter plus the length of the remaining unwritten region equals the
original capacity. -/
theorem C4_committed_plus_remaining (buf : List ℕ) (ops : List AnyOp)
    (s2 : Static.Shellcoder)
    (h : Static.run (Static.Shellcoder.new buf) ops = (s2, none)) :
    s2.committed + s2.remaining.length = buf.length := by
  have hinv0 : Static.Inv buf.length (Static.Shellcoder.new buf) :=
    ⟨rfl, rfl, Nat.zero_le _⟩
  have hinv := Static.run_none_inv buf.length ops _ s2 hinv0 h
  have hrem := Static.remaining_length_eq buf.length s2 hinv
  obtain ⟨h1, h2, h3⟩ := hinv
  omega

theorem C4_witness :
    (⟨[65, 65, 0], 2, 2⟩ : Static.Shellcoder).committed +
      (⟨[65, 65, 0], 2, 2⟩ : Static.Shellcoder).remaining.length = 3 :=
  C4_committed_plus_remaining [0, 0, 0] [.fill 2 65] ⟨[65, 65, 0], 2, 2⟩ rfl

/-- C5: for the growable-buffer engine with a bound, when an append makes
the sequence exceed the bound, add still physically appends the bytes of
the operation, returns OutputBufferTooSmall carrying the post-append
length, and does not roll the appended bytes back. -/
theorem C5_post_append_error (s : Alloc.Shellcoder) (op : AnyOp) (m : ℕ)
    (hm : s.max_len = some m) (hgt : m < s.stream.length + op.size) :
    s.add op = (⟨s.stream ++ op.encode, some m⟩,
      some (.outputBufferTooSmall (s.stream.length + op.size))) :=
  Alloc.add_of_gt s op m hm hgt

theorem C5_witness :
    (Alloc.Shellcoder.new_with_max_len 1).add (.fill 2 65) =
      (⟨[65, 65], some 1⟩, some (.outputBufferTooSmall 2)) :=
  C5_post_append_error (Alloc.Shellcoder.new_with_max_len 1) (.fill 2 65) 1 rfl (by decide)

/-- C6: for the fixed-buffer engine, when the direct-region realization of
the operation fails because the remaining region is too small, add returns
the error and the whole state, committed counter, remaining region and
every byte of the underlying buffer included, is exactly as before. -/
theorem C6_region_error_no_partial_commit (s : Static.Shellcoder) (op : AnyOp)
    (hsmall : s.remaining.length < op.size) :
    s.add op = (s, some (.outputBufferTooSmall op.size)) := by
  have hw := AnyOp.write_to_of_lt op s.remaining hsmall
  unfold Static.Shellcoder.add
  rw [hw]

theorem C6_witness :
    (Static.Shellcoder.new [0, 0]).add (.fill 3 65) =
      (Static.Shellcoder.new [0, 0], some (.outputBufferTooSmall 3)) :=
  C6_region_error_no_partial_commit (Static.Shellcoder.new [0, 0]) (.fill 3 65) (by decide)

/-- C7: for every operation and every region strictly shorter than its
declared byte count, the direct-region realization fails with
OutputBufferTooSmall carrying exactly that declared count. -/
theorem C7_write_to_too_small (op : AnyOp) (out : List ℕ) (h : out.length < op.size) :
    op.write_to out = .error (.outputBufferTooSmall op.size) :=
  AnyOp.write_to_of_lt op out h

theorem C7_witness :
    AnyOp.write_to (.writeInteger .w32 .big 0xdeadbeef) [0, 0, 0] =
      .error (.outputBufferTooSmall 4) :=
  C7_write_to_too_small (.writeInteger .w32 .big 0xdeadbeef) [0, 0, 0] (by decide)

/-- C8: for every sequence of operations whose total declared byte count
fits the target capacity, every add succeeds, and the final committed
prefix (fixed-buffer engine over a caller buffer) and the accumulated
stream (growable-buffer engine with a bound) equal the concatenation of
the canonical encodings of the operations in call order. -/
theorem C8_total_fits_concatenation (buf : List ℕ) (ops : List AnyOp) (m : ℕ) :
    (buf.length ≤ USIZE_MAX → totalSize ops ≤ buf.length →
      ∃ s2, Static.run (Static.Shellcoder.new buf) ops = (s2, none) ∧
        s2.committed = totalSize ops ∧ s2.full.take s2.committed = concatEnc ops) ∧
    (totalSize ops ≤ m →
      Alloc.run (Alloc.Shellcoder.new_with_max_len m) ops = (⟨concatEnc ops, some m⟩, none)) := by
  constructor
  · intro hcap hts
    have hinv0 : Static.Inv buf.length (Static.Shellcoder.new buf) :=
      ⟨rfl, rfl, Nat.zero_le _⟩
    obtain ⟨s2, hrun, hinv2, hc, hp⟩ :=
      Static.run_fit buf.length hcap ops (Static.Shellcoder.new buf) hinv0
        (by show 0 + totalSize ops ≤ buf.length; omega)
    refine ⟨s2, hrun, ?_, ?_⟩
    · rw [hc]
      show 0 + totalSize ops = totalSize ops
      omega
    · rw [hp]
      show List.take 0 buf ++ concatEnc ops = concatEnc ops
      simp
  · intro hts
    have h := Alloc.run_le m ops (Alloc.Shellcoder.new_with_max_len m) rfl
      (by show ([] : List ℕ).length + totalSize ops ≤ m; simpa using hts)
    simpa [Alloc.Shellcoder.new_with_max_len] using h

theorem C8_witness :
    (∃ s2, Static.run (Static.Shellcoder.new [0, 0, 0]) [.fill 2 65] = (s2, none) ∧
        s2.committed = totalSize [.fill 2 65] ∧
        s2.full.take s2.committed = concatEnc [.fill 2 65]) ∧
    Alloc.run (Alloc.Shellcoder.new_with_max_len 2) [.fill 2 65] =
      (⟨concatEnc [.fill 2 65], some 2⟩, none) :=
  ⟨(C8_total_fits_concatenation [0, 0, 0] [.fill 2 65] 2).1 (by decide) (by decide),
   (C8_total_fits_concatenation [0, 0, 0] [.fill 2 65] 2).2 (by decide)⟩

/-- C9: writing an unsigned integer of any supported width in big endian
into a sufficiently large region succeeds, and re-interpreting the written
width bytes as a big-endian unsigned integer reproduces the value modulo
2 to the power of 8 times the width. -/
theorem C9_be_roundtrip (w : IntWidth) (v : ℕ) (out : List ℕ) (h : w.n ≤ out.length) :
    AnyOp.write_to (.writeInteger w .big v) out =
      .ok (toBeBytes w.n v ++ out.drop w.n, w.n) ∧
    fromBeBytes ((toBeBytes w.n v ++ out.drop w.n).take w.n) = v % 2 ^ (8 * w.n) := by
  constructor
  · have h2 := AnyOp.write_to_of_le (.writeInteger w .big v) out
      (by simpa [AnyOp.size] using h)
    simpa [AnyOp.encode, AnyOp.size] using h2
  · have htake : (toBeBytes w.n v ++ out.drop w.n).take w.n = toBeBytes w.n v := by
      have h1 : (toBeBytes w.n v).take w.n = toBeBytes w.n v :=
        List.take_of_length_le (le_of_eq (toBeBytes_length w.n v))
      rw [List.take_append_eq_append_take, h1, toBeBytes_length, Nat.sub_self]
      simp
    rw [htake, fromBeBytes_toBeBytes]
    congr 1
    rw [pow_mul]
    norm_num

theorem C9_witness :
    AnyOp.write_to (.writeInteger .w32 .big 0xdeadbeef) [0, 0, 0, 0] =
      .ok (toBeBytes 4 0xdeadbeef ++ List.drop 4 [0, 0, 0, 0], 4) ∧
    fromBeBytes ((toBeBytes 4 0xdeadbeef ++ List.drop 4 [0, 0, 0, 0]).take 4) =
      0xdeadbeef % 2 ^ 32 :=
  C9_be_roundtrip .w32 0xdeadbeef [0, 0, 0, 0] (by decide)

/-- C10: Advance(n) is extensionally equal to Fill(n, 0) under both
realizations: the stream realization agrees on every sink and sink state,
and the direct-region realization agrees on every region, in written
bytes, return value and error alike. -/
theorem C10_advance_is_fill_zero :
    (∀ (σ : Type) (writeAll : σ → List ℕ → Option σ) (n : ℕ) (st : σ),
      Advance.write_to_io writeAll n st = Fill.write_to_io writeAll n 0 st) ∧
    (∀ (n : ℕ) (out : List ℕ), Advance.write_to n out = Fill.write_to n 0 out) :=
  ⟨fun _ _ _ _ => rfl, fun _ _ => rfl⟩

example : Fill.write_to 10 65 (List.replicate 9 0) = .error (.outputBufferTooSmall 10) := by rfl

example : toBeBytes 4 0xdeadbeef = [0xde, 0xad, 0xbe, 0xef] := by decide

example : toLeBytes 4 0xdeadbeef = [0xef, 0xbe, 0xad, 0xde] := by decide

example :
    (Alloc.Shellcoder.new.add (.fill 10 0x41)).1.as_bytes = List.replicate 10 0x41 := by decide
